import Mathlib

/-!
Verification of the number-theory toolkit: sieve-based prime generation
(`generate`), trial-division primality (`is_prime_trial`), Fermat probabilistic
primality (`fermat_primality_test`) and modular exponentiation (`mod_exp`).

The Rust sources are embedded shallowly: machine integers become `Nat`
(with an explicit `% 2 ^ w` wrapping variant where overflow is at stake,
and an `Option`-valued variant where a panic — index out of bounds,
remainder by zero — is at stake), vectors become `List Bool`, and the
random witness stream of the Fermat test becomes an explicit function
from the round index to the drawn witness.
-/

set_option maxRecDepth 10000

/-- The accumulation loop of `ModExp::mod_exp`: `while i < exponent { result =
(result * base) % modulus; i = i + 1 }`, written as recursion on the number of
remaining iterations `exponent - i`. Arithmetic is exact (no overflow). -/
def modExpLoop (base modulus : Nat) : Nat → Nat → Nat
  | 0, result => result
  | k + 1, result => modExpLoop base modulus k (result * base % modulus)

/-- `ModExp::mod_exp(base, exponent, modulus)` from
`src/numbers/operations/mod_exp.rs`, with exact arithmetic. -/
def mod_exp (base exponent modulus : Nat) : Nat :=
  if modulus = 1 then 0
  else modExpLoop base modulus exponent 1

/-- The same loop over a `w`-bit unsigned machine integer: the product
`result * base` wraps at `2 ^ w` before the reduction by `modulus`. -/
def modExpLoopW (w base modulus : Nat) : Nat → Nat → Nat
  | 0, result => result
  | k + 1, result => modExpLoopW w base modulus k (result * base % 2 ^ w % modulus)

/-- `ModExp::mod_exp` over a `w`-bit unsigned integer type. -/
def mod_exp_w (w base exponent modulus : Nat) : Nat :=
  if modulus = 1 then 0
  else modExpLoopW w base modulus exponent 1

/-- The accumulation loop with the remainder operation checked: in Rust,
`%` with a zero divisor panics, modelled here as `none`. -/
def modExpLoopChecked (base modulus : Nat) : Nat → Nat → Option Nat
  | 0, result => some result
  | k + 1, result =>
    if modulus = 0 then none
    else modExpLoopChecked base modulus k (result * base % modulus)

/-- `ModExp::mod_exp` with the division-by-zero panic made explicit. -/
def mod_exp_checked (base exponent modulus : Nat) : Option Nat :=
  if modulus = 1 then some 0
  else modExpLoopChecked base modulus exponent 1

/-- The inner loop of `generate`: starting from multiplier `m`, clear the flag
of every multiple `p * m` of `p` while `p * m ≤ upto` (`break` once the
multiple exceeds `upto`). The structural `fuel` argument dominates the
iteration count; `generate` passes `upto`, which is enough (proved below). -/
def markMultiples (upto p : Nat) : Nat → Nat → List Bool → List Bool
  | 0, _, flags => flags
  | fuel + 1, m, flags =>
    if upto < p * m then flags
    else markMultiples upto p fuel (m + 1) (flags.set (p * m - 1) false)

/-- One iteration of the outer loop of `generate`: if the flag of
`current_smallest_prime` is still set, clear the flags of all its multiples.
The flag reads and writes are total here because they are in bounds whenever
`p ≤ upto` and `flags` has length `upto`. -/
def sieveStep (upto p : Nat) (flags : List Bool) : List Bool :=
  if flags.getD (p - 1) false then markMultiples upto p upto 2 flags
  else flags

/-- The outer loop of `generate`: `while current_smallest_prime <= upto`,
written as recursion on the remaining iteration count `upto + 1 - p`. -/
def sieveLoop (upto : Nat) : Nat → Nat → List Bool → List Bool
  | 0, _, flags => flags
  | fuel + 1, p, flags =>
    if upto < p then flags
    else sieveLoop upto fuel (p + 1) (sieveStep upto p flags)

/-- The flag vector of `generate upto` after the sieve has run: one flag per
value in `[1, upto]` (the flag of `v` sits at index `v - 1`), all initialized
`true` with the flag of `1` cleared, then swept by the sieve loop. -/
def sieveFlags (upto : Nat) : List Bool :=
  sieveLoop upto upto 2 ((List.replicate upto true).set 0 false)

/-- Rust's checked indexed assignment `flags[i] = b`: out of bounds panics,
modelled as `none`. -/
def setChecked (flags : List Bool) (i : Nat) (b : Bool) : Option (List Bool) :=
  if i < flags.length then some (flags.set i b) else none

/-- The collection step of `generate`:
`.into_iter().enumerate().filter_map(|(index, is_prime)| if is_prime
{ Some(index + 1) } else { None }).collect()`, with `i` the index of the
first element of the remaining list. -/
def collectFrom : Nat → List Bool → List Nat
  | _, [] => []
  | i, b :: rest =>
    if b then (i + 1) :: collectFrom (i + 1) rest
    else collectFrom (i + 1) rest

/-- The full enumerate-and-filter collection over a flag vector. -/
def collectPrimes (flags : List Bool) : List Nat :=
  collectFrom 0 flags

/-- `generate(upto)` from `src/numbers/primes.rs`. The unguarded write
`prime_flags[0] = false` is the checked assignment `setChecked`; every later
access of the sieve is provably in bounds. -/
def generate (upto : Nat) : Option (List Nat) :=
  match setChecked (List.replicate upto true) 0 false with
  | none => none
  | some prime_flags => some (collectPrimes (sieveLoop upto upto 2 prime_flags))

/-- `is_prime_trial(n)` from `src/numbers/primes.rs`. The source computes the
bound as `(n as f64).sqrt().trunc() as u64`; it is modelled here by the exact
integer square root `Nat.sqrt`, the value the spec prescribes for the bound.
The range `2..=square_root` becomes `List.range' 2 (square_root - 1)`. -/
def is_prime_trial (n : Nat) : Bool :=
  if n ≤ 1 then false
  else
    let square_root := Nat.sqrt n
    !((List.range' 2 (square_root - 1)).any fun i => n % i == 0)

/-- The trial loop of `fermat_primality_test`: `while i < repeats_count`,
written as recursion on the remaining round count `repeats_count - i`, with
`wit i` the witness drawn at round `i` (the witness stream models
`rng.gen_range(2..=(n - 2))`). The source calls the `u64` instance of
`ModExp::mod_exp`, whose product wraps at `2 ^ 64`, hence `mod_exp_w 64`.
A failing witness returns `false` at once. -/
def fermatLoop (wit : Nat → Nat) (n : Nat) : Nat → Nat → Bool
  | 0, _ => true
  | k + 1, i =>
    if mod_exp_w 64 (wit i) (n - 1) n ≠ 1 then false
    else fermatLoop wit n k (i + 1)

/-- `fermat_primality_test(n, repeats_count)` from `src/numbers/primes.rs`,
parameterized by the stream of drawn witnesses. -/
def fermat_primality_test (wit : Nat → Nat) (n : Nat) (repeats_count : Nat) : Bool :=
  if n < 2 then false
  else if n < 4 then true
  else fermatLoop wit n repeats_count 0

/-- A generic fueled while loop: `whileFuel cond body fuel s` iterates `body`
while `cond` holds, and returns `none` only if `fuel` iterations did not
suffice to reach the exit condition. Each source loop is re-expressed through
it below to state that its iteration count is bounded by its inputs. -/
def whileFuel {α : Type} (cond : α → Bool) (body : α → α) : Nat → α → Option α
  | 0, s => if cond s then none else some s
  | fuel + 1, s => if cond s then whileFuel cond body fuel (body s) else some s

/-- Condition of the `mod_exp` loop: `i < exponent`, on states `(i, result)`. -/
def modExpCond (exponent : Nat) (s : Nat × Nat) : Bool :=
  s.1 < exponent

/-- Body of the `mod_exp` loop: `result = (result * base) % modulus; i += 1`. -/
def modExpBody (base modulus : Nat) (s : Nat × Nat) : Nat × Nat :=
  (s.1 + 1, s.2 * base % modulus)

/-- Condition of the outer sieve loop: `current_smallest_prime <= upto`, on
states `(current_smallest_prime, prime_flags)`. -/
def sieveCond (upto : Nat) (s : Nat × List Bool) : Bool :=
  s.1 ≤ upto

/-- Body of the outer sieve loop: process one candidate, then advance it. -/
def sieveBody (upto : Nat) (s : Nat × List Bool) : Nat × List Bool :=
  (s.1 + 1, sieveStep upto s.1 s.2)

/-- Condition of the inner sieve loop: the loop breaks when
`multiple > upto`, so it continues while `¬(upto < p * m)`; states are
`(current_multiplier, prime_flags)`. -/
def markCond (upto p : Nat) (s : Nat × List Bool) : Bool :=
  !(upto < p * s.1)

/-- Body of the inner sieve loop: clear the flag of the current multiple and
advance the multiplier. -/
def markBody (p : Nat) (s : Nat × List Bool) : Nat × List Bool :=
  (s.1 + 1, s.2.set (p * s.1 - 1) false)

/-- Condition of the trial-division iterator `(2..=square_root).any(...)` read
as a loop: continue while `i ≤ square_root` and no divisor was found; states
are `(i, found)`. -/
def trialCond (square_root : Nat) (s : Nat × Bool) : Bool :=
  s.1 ≤ square_root && !s.2

/-- Body of the trial-division loop: record whether `i` divides `n`. -/
def trialBody (n : Nat) (s : Nat × Bool) : Nat × Bool :=
  (s.1 + 1, s.2 || (n % s.1 == 0))

/-- Condition of the Fermat trial loop: `i < repeats_count`, with the early
`return false` folded into the `ok` component of the state `(i, ok)`. -/
def fermatCond (repeats_count : Nat) (s : Nat × Bool) : Bool :=
  s.1 < repeats_count && s.2

/-- Body of the Fermat trial loop: run one witness check (on the wrapped
`u64` arithmetic, as in the source) and advance. -/
def fermatBody (wit : Nat → Nat) (n : Nat) (s : Nat × Bool) : Nat × Bool :=
  (s.1 + 1, s.2 && (mod_exp_w 64 (wit s.1) (n - 1) n == 1))

lemma getD_set (l : List Bool) (i j : Nat) (b d : Bool) :
    (l.set i b).getD j d = if i = j ∧ j < l.length then b else l.getD j d := by
  induction l generalizing i j with
  | nil => simp
  | cons a t ih =>
    cases i with
    | zero => cases j <;> simp
    | succ i' =>
      cases j with
      | zero => simp
      | succ j' =>
        simp only [List.set, List.getD_cons_succ, ih i' j', List.length_cons]
        have : (i' = j' ∧ j' < t.length) ↔ (i' + 1 = j' + 1 ∧ j' + 1 < t.length + 1) := by omega
        rw [if_congr this rfl rfl]

lemma getD_replicate (n j : Nat) (a d : Bool) :
    (List.replicate n a).getD j d = if j < n then a else d := by
  induction n generalizing j with
  | zero => simp
  | succ n ih =>
    cases j with
    | zero => simp [List.replicate]
    | succ j' => simpa [List.replicate] using ih j'

lemma modExpLoop_eq (base modulus : Nat) :
    ∀ k result, modExpLoop base modulus (k + 1) result = result * base ^ (k + 1) % modulus := by
  intro k
  induction k with
  | zero => intro r; simp [modExpLoop]
  | succ k ih =>
    intro r
    have step : modExpLoop base modulus (k + 1 + 1) r
        = modExpLoop base modulus (k + 1) (r * base % modulus) := rfl
    rw [step, ih]
    rw [Nat.mod_mul_mod]
    congr 1
    ring

lemma mod_exp_eq (base exponent modulus : Nat) (hm : 1 ≤ modulus) :
    mod_exp base exponent modulus = base ^ exponent % modulus := by
  unfold mod_exp
  by_cases h1 : modulus = 1
  · simp [h1, Nat.mod_one]
  · have h2 : 2 ≤ modulus := by omega
    rw [if_neg h1]
    cases exponent with
    | zero =>
      show (1 : Nat) = base ^ 0 % modulus
      rw [pow_zero, Nat.mod_eq_of_lt (by omega)]
    | succ k =>
      rw [modExpLoop_eq base modulus k 1, one_mul]

lemma modExpLoopW_eq (w base modulus : Nat) (hm : 2 ≤ modulus)
    (hov : (modulus - 1) * base < 2 ^ w) :
    ∀ k result, result ≤ modulus - 1 →
      modExpLoopW w base modulus k result = modExpLoop base modulus k result := by
  intro k
  induction k with
  | zero => intro r _; rfl
  | succ k ih =>
    intro r hr
    have hprod : r * base < 2 ^ w :=
      lt_of_le_of_lt (Nat.mul_le_mul_right base hr) hov
    have hwrap : r * base % 2 ^ w = r * base := Nat.mod_eq_of_lt hprod
    show modExpLoopW w base modulus k (r * base % 2 ^ w % modulus)
        = modExpLoop base modulus k (r * base % modulus)
    rw [hwrap]
    exact ih (r * base % modulus) (by
      have := Nat.mod_lt (r * base) (show 0 < modulus by omega)
      omega)

lemma mod_exp_w_eq (w base exponent modulus : Nat) (hm : 1 ≤ modulus)
    (hov : (modulus - 1) * base < 2 ^ w) :
    mod_exp_w w base exponent modulus = base ^ exponent % modulus := by
  by_cases h1 : modulus = 1
  · subst h1; simp [mod_exp_w, Nat.mod_one]
  · have h2 : 2 ≤ modulus := by omega
    unfold mod_exp_w
    rw [if_neg h1, modExpLoopW_eq w base modulus h2 hov exponent 1 (by omega)]
    have := mod_exp_eq base exponent modulus hm
    unfold mod_exp at this
    rwa [if_neg h1] at this

lemma modExpLoopChecked_eq (base modulus : Nat) (hm : modulus ≠ 0) :
    ∀ k result, modExpLoopChecked base modulus k result
      = some (modExpLoop base modulus k result) := by
  intro k
  induction k with
  | zero => intro r; rfl
  | succ k ih =>
    intro r
    show (if modulus = 0 then none else modExpLoopChecked base modulus k (r * base % modulus))
        = some (modExpLoop base modulus k (r * base % modulus))
    rw [if_neg hm, ih]

lemma mod_exp_checked_eq (base exponent modulus : Nat) (hm : 1 ≤ modulus) :
    mod_exp_checked base exponent modulus = some (mod_exp base exponent modulus) := by
  unfold mod_exp_checked mod_exp
  by_cases h1 : modulus = 1
  · simp [h1]
  · rw [if_neg h1, if_neg h1, modExpLoopChecked_eq base modulus (by omega)]

lemma fermatLoop_true_iff (wit : Nat → Nat) (n : Nat) :
    ∀ k i, (fermatLoop wit n k i = true ↔
      ∀ j, i ≤ j → j < i + k → mod_exp_w 64 (wit j) (n - 1) n = 1) := by
  intro k
  induction k with
  | zero => intro i; simp [fermatLoop]; omega
  | succ k ih =>
    intro i
    show (if mod_exp_w 64 (wit i) (n - 1) n ≠ 1 then false
        else fermatLoop wit n k (i + 1)) = true
        ↔ _
    by_cases hfail : mod_exp_w 64 (wit i) (n - 1) n ≠ 1
    · rw [if_pos hfail]
      simp only [Bool.false_eq_true, false_iff, not_forall]
      exact ⟨i, le_refl i, by omega, hfail⟩
    · rw [if_neg hfail, ih (i + 1)]
      push_neg at hfail
      constructor
      · intro h j hij hjk
        rcases Nat.eq_or_lt_of_le hij with rfl | hlt
        · exact hfail
        · exact h j hlt (by omega)
      · intro h j hij hjk
        exact h j (by omega) (by omega)

lemma whileFuel_isSome {α : Type} (cond : α → Bool) (body : α → α) (μ : α → Nat)
    (hdec : ∀ s, cond s = true → μ (body s) < μ s) :
    ∀ fuel s, μ s ≤ fuel → (whileFuel cond body fuel s).isSome = true := by
  intro fuel
  induction fuel with
  | zero =>
    intro s hs
    show (if cond s then none else some s).isSome = true
    by_cases hc : cond s = true
    · exact absurd (hdec s hc) (by omega)
    · simp [hc]
  | succ fuel ih =>
    intro s hs
    show (if cond s then whileFuel cond body fuel (body s) else some s).isSome = true
    by_cases hc : cond s = true
    · rw [if_pos hc]
      exact ih (body s) (by have := hdec s hc; omega)
    · simp [hc]

lemma length_markMultiples (upto p : Nat) :
    ∀ fuel m flags, (markMultiples upto p fuel m flags).length = flags.length := by
  intro fuel
  induction fuel with
  | zero => intro m flags; rfl
  | succ fuel ih =>
    intro m flags
    simp only [markMultiples]
    by_cases hbreak : upto < p * m
    · rw [if_pos hbreak]
    · rw [if_neg hbreak, ih, List.length_set]

lemma length_sieveStep (upto p : Nat) (flags : List Bool) :
    (sieveStep upto p flags).length = flags.length := by
  unfold sieveStep
  by_cases hflag : flags.getD (p - 1) false = true
  · rw [if_pos hflag, length_markMultiples]
  · rw [if_neg hflag]

lemma markMultiples_false_iff (upto p : Nat) (hp : 1 ≤ p) :
    ∀ fuel m flags, 1 ≤ m → flags.length = upto → ∀ j, j < upto →
      ((markMultiples upto p fuel m flags).getD j false = false ↔
        (∃ k, m ≤ k ∧ k < m + fuel ∧ p * k ≤ upto ∧ j + 1 = p * k) ∨
          flags.getD j false = false) := by
  intro fuel
  induction fuel with
  | zero =>
    intro m flags hm hlen j hj
    show flags.getD j false = false ↔ _
    constructor
    · exact Or.inr
    · rintro (⟨k, hk1, hk2, _, _⟩ | h)
      · omega
      · exact h
  | succ fuel ih =>
    intro m flags hm hlen j hj
    simp only [markMultiples]
    by_cases hbreak : upto < p * m
    · rw [if_pos hbreak]
      constructor
      · exact Or.inr
      · rintro (⟨k, hk1, hk2, hk3, hk4⟩ | h)
        · have hmono : p * m ≤ p * k := Nat.mul_le_mul (le_refl p) hk1
          omega
        · exact h
    · rw [if_neg hbreak]
      push_neg at hbreak
      have hlen' : (flags.set (p * m - 1) false).length = upto := by
        rw [List.length_set]; exact hlen
      rw [ih (m + 1) _ (by omega) hlen' j hj]
      have hpm : 1 ≤ p * m := Nat.mul_le_mul hp hm
      have hset : ((flags.set (p * m - 1) false).getD j false = false ↔
          j + 1 = p * m ∨ flags.getD j false = false) := by
        rw [getD_set]
        by_cases hc : p * m - 1 = j ∧ j < flags.length
        · rw [if_pos hc]
          constructor
          · intro _; exact Or.inl (by omega)
          · intro _; rfl
        · rw [if_neg hc]
          constructor
          · exact Or.inr
          · rintro (h1 | h2)
            · exact absurd ⟨by omega, by omega⟩ hc
            · exact h2
      rw [hset]
      constructor
      · rintro (⟨k, hk1, hk2, hk3, hk4⟩ | (h1 | h2))
        · exact Or.inl ⟨k, by omega, by omega, hk3, hk4⟩
        · exact Or.inl ⟨m, le_refl m, by omega, hbreak, h1⟩
        · exact Or.inr h2
      · rintro (⟨k, hk1, hk2, hk3, hk4⟩ | h2)
        · rcases Nat.eq_or_lt_of_le hk1 with rfl | hlt
          · exact Or.inr (Or.inl hk4)
          · exact Or.inl ⟨k, by omega, by omega, hk3, hk4⟩
        · exact Or.inr (Or.inr h2)

lemma sieveStep_false_iff (upto p : Nat) (hp : 2 ≤ p) (flags : List Bool)
    (hlen : flags.length = upto) (j : Nat) (hj : j < upto) :
    ((sieveStep upto p flags).getD j false = false ↔
      (flags.getD (p - 1) false = true ∧ ∃ k, 2 ≤ k ∧ p * k ≤ upto ∧ j + 1 = p * k) ∨
        flags.getD j false = false) := by
  unfold sieveStep
  by_cases hflag : flags.getD (p - 1) false = true
  · rw [if_pos hflag,
      markMultiples_false_iff upto p (by omega) upto 2 flags (by omega) hlen j hj]
    constructor
    · rintro (⟨k, hk1, hk2, hk3, hk4⟩ | h)
      · exact Or.inl ⟨hflag, k, hk1, hk3, hk4⟩
      · exact Or.inr h
    · rintro (⟨_, k, hk1, hk3, hk4⟩ | h)
      · have hkle : k ≤ p * k := Nat.le_mul_of_pos_left k (by omega)
        exact Or.inl ⟨k, hk1, by omega, hk3, hk4⟩
      · exact Or.inr h
  · rw [if_neg hflag]
    constructor
    · exact Or.inr
    · rintro (⟨h1, _⟩ | h)
      · exact absurd h1 hflag
      · exact h

/-- The sieve's progress invariant: before the outer loop processes candidate
`p0`, the flag of value `j + 1` has been cleared exactly when `j + 1` is `1`
or a multiple `q * k` (with `k ≥ 2`, `q * k ≤ upto`) of some already processed
candidate `q < p0`. -/
def ClearedInv (upto p0 : Nat) (flags : List Bool) : Prop :=
  ∀ j, j < upto →
    (flags.getD j false = false ↔
      j = 0 ∨ ∃ q k, 2 ≤ q ∧ q < p0 ∧ 2 ≤ k ∧ q * k ≤ upto ∧ j + 1 = q * k)

lemma clearedInv_init (upto : Nat) :
    ClearedInv upto 2 ((List.replicate upto true).set 0 false) := by
  intro j hj
  rw [getD_set, getD_replicate]
  by_cases hj0 : j = 0
  · subst hj0
    rw [if_pos ⟨rfl, by simpa using hj⟩]
    simp
  · rw [if_neg (fun hc => hj0 hc.1.symm), if_pos hj]
    constructor
    · intro h; exact absurd h (by simp)
    · rintro (h0 | ⟨q, k, h1, h2, _, _, _⟩)
      · exact absurd h0 hj0
      · omega

lemma clearedInv_step (upto p : Nat) (hp : 2 ≤ p) (hple : p ≤ upto)
    (flags : List Bool) (hlen : flags.length = upto)
    (hinv : ClearedInv upto p flags) :
    ClearedInv upto (p + 1) (sieveStep upto p flags) := by
  intro j hj
  rw [sieveStep_false_iff upto p hp flags hlen j hj]
  constructor
  · rintro (⟨hflag, k, hk1, hk2, hk3⟩ | h)
    · exact Or.inr ⟨p, k, hp, by omega, hk1, hk2, hk3⟩
    · rcases (hinv j hj).mp h with h0 | ⟨q, k, h1, h2, h3, h4, h5⟩
      · exact Or.inl h0
      · exact Or.inr ⟨q, k, h1, by omega, h3, h4, h5⟩
  · rintro (h0 | ⟨q, k, h1, h2, h3, h4, h5⟩)
    · exact Or.inr ((hinv j hj).mpr (Or.inl h0))
    · by_cases hqp : q < p
      · exact Or.inr ((hinv j hj).mpr (Or.inr ⟨q, k, h1, hqp, h3, h4, h5⟩))
      · have hqeq : q = p := by omega
        subst hqeq
        by_cases hflag : flags.getD (q - 1) false = true
        · exact Or.inl ⟨hflag, k, h3, h4, h5⟩
        · have hflag' : flags.getD (q - 1) false = false := by
            cases hb : flags.getD (q - 1) false
            · rfl
            · exact absurd hb hflag
          have hq1 : q - 1 < upto := by omega
          rcases (hinv (q - 1) hq1).mp hflag' with h0' | ⟨q', k', hq'1, hq'2, hk'1, hq'3, hq'4⟩
          · omega
          · have hqval : q = q' * k' := by omega
            have hkk : 2 * 2 ≤ k' * k := Nat.mul_le_mul hk'1 h3
            refine Or.inr ((hinv j hj).mpr (Or.inr ⟨q', k' * k, hq'1, hq'2, by omega, ?_, ?_⟩))
            · rw [← mul_assoc, ← hqval]; exact h4
            · rw [← mul_assoc, ← hqval]; exact h5

lemma clearedInv_boundary (upto p p' : Nat) (hp : upto < p) (hp' : upto < p')
    (flags : List Bool) (hinv : ClearedInv upto p flags) :
    ClearedInv upto p' flags := by
  intro j hj
  rw [hinv j hj]
  have hgen : ∀ q k : Nat, 2 ≤ k → q * k ≤ upto → q * 2 ≤ upto := by
    intro q k hk hle
    have : q * 2 ≤ q * k := Nat.mul_le_mul (le_refl q) hk
    omega
  constructor
  · rintro (h0 | ⟨q, k, h1, _, h3, h4, h5⟩)
    · exact Or.inl h0
    · have := hgen q k h3 h4
      exact Or.inr ⟨q, k, h1, by omega, h3, h4, h5⟩
  · rintro (h0 | ⟨q, k, h1, _, h3, h4, h5⟩)
    · exact Or.inl h0
    · have := hgen q k h3 h4
      exact Or.inr ⟨q, k, h1, by omega, h3, h4, h5⟩

lemma sieveLoop_inv (upto : Nat) :
    ∀ fuel p flags, 2 ≤ p → flags.length = upto → ClearedInv upto p flags →
      upto < p + fuel →
      ClearedInv upto (upto + 1) (sieveLoop upto fuel p flags) ∧
        (sieveLoop upto fuel p flags).length = upto := by
  intro fuel
  induction fuel with
  | zero =>
    intro p flags hp hlen hinv hcnt
    exact ⟨clearedInv_boundary upto p (upto + 1) (by omega) (by omega) flags hinv, hlen⟩
  | succ fuel ih =>
    intro p flags hp hlen hinv hcnt
    simp only [sieveLoop]
    by_cases hple : upto < p
    · rw [if_pos hple]
      exact ⟨clearedInv_boundary upto p (upto + 1) hple (by omega) flags hinv, hlen⟩
    · rw [if_neg hple]
      push_neg at hple
      exact ih (p + 1) (sieveStep upto p flags) (by omega)
        (by rw [length_sieveStep]; exact hlen)
        (clearedInv_step upto p hp hple flags hlen hinv) (by omega)

lemma notPrime_decomp (upto j : Nat) (hj : j < upto) :
    (j = 0 ∨ ∃ q k, 2 ≤ q ∧ q < upto + 1 ∧ 2 ≤ k ∧ q * k ≤ upto ∧ j + 1 = q * k)
      ↔ ¬Nat.Prime (j + 1) := by
  constructor
  · rintro (h0 | ⟨q, k, h1, h2, h3, h4, h5⟩)
    · subst h0; exact Nat.not_prime_one
    · intro hpr
      rcases hpr.eq_one_or_self_of_dvd q ⟨k, h5⟩ with hq1 | hqs
      · omega
      · rw [hqs] at h5
        have hge : (j + 1) * 2 ≤ (j + 1) * k := Nat.mul_le_mul (le_refl (j + 1)) h3
        rw [← h5] at hge
        omega
  · intro hnp
    by_cases hj0 : j = 0
    · exact Or.inl hj0
    · have h2 : 2 ≤ j + 1 := by omega
      obtain ⟨m, hdvd, hm2, hmlt⟩ := Nat.exists_dvd_of_not_prime2 h2 hnp
      obtain ⟨k, hk⟩ := hdvd
      have hk2 : 2 ≤ k := by
        rcases k with _ | _ | k
        · rw [Nat.mul_zero] at hk; omega
        · rw [Nat.mul_one] at hk; omega
        · omega
      refine Or.inr ⟨m, k, hm2, by omega, hk2, ?_, hk⟩
      rw [← hk]; omega

lemma sieveFlags_true_iff (upto : Nat) (j : Nat) (hj : j < upto) :
    ((sieveFlags upto).getD j false = true ↔ Nat.Prime (j + 1)) := by
  have hlen : ((List.replicate upto true).set 0 false).length = upto := by simp
  have hinv := (sieveLoop_inv upto upto 2 _ (le_refl 2) hlen
    (clearedInv_init upto) (by omega)).1
  have hch := hinv j hj
  rw [notPrime_decomp upto j hj] at hch
  show (sieveLoop upto upto 2 ((List.replicate upto true).set 0 false)).getD j false
      = true ↔ _
  cases hb : (sieveLoop upto upto 2 ((List.replicate upto true).set 0 false)).getD j false with
  | false =>
    have hnp := hch.mp hb
    constructor
    · intro habs; exact absurd habs (by simp)
    · intro hp; exact absurd hp hnp
  | true =>
    constructor
    · intro _
      by_contra hnp
      have hfalse := hch.mpr hnp
      rw [hb] at hfalse
      exact absurd hfalse (by simp)
    · intro _; rfl

lemma sieveFlags_length (upto : Nat) : (sieveFlags upto).length = upto := by
  have hlen : ((List.replicate upto true).set 0 false).length = upto := by simp
  exact (sieveLoop_inv upto upto 2 _ (le_refl 2) hlen (clearedInv_init upto) (by omega)).2

lemma markMultiples_mono (upto p : Nat) :
    ∀ fuel m flags j, (markMultiples upto p fuel m flags).getD j false = true →
      flags.getD j false = true := by
  intro fuel
  induction fuel with
  | zero => intro m flags j h; exact h
  | succ fuel ih =>
    intro m flags j h
    simp only [markMultiples] at h
    by_cases hbreak : upto < p * m
    · rwa [if_pos hbreak] at h
    · rw [if_neg hbreak] at h
      have hrec := ih (m + 1) _ j h
      rw [getD_set] at hrec
      by_cases hc : p * m - 1 = j ∧ j < flags.length
      · rw [if_pos hc] at hrec; exact absurd hrec (by simp)
      · rwa [if_neg hc] at hrec

lemma sieveStep_mono (upto p : Nat) (flags : List Bool) (j : Nat)
    (h : (sieveStep upto p flags).getD j false = true) :
    flags.getD j false = true := by
  unfold sieveStep at h
  by_cases hflag : flags.getD (p - 1) false = true
  · rw [if_pos hflag] at h
    exact markMultiples_mono upto p upto 2 flags j h
  · rwa [if_neg hflag] at h

lemma sieveLoop_mono (upto : Nat) :
    ∀ fuel p flags j, (sieveLoop upto fuel p flags).getD j false = true →
      flags.getD j false = true := by
  intro fuel
  induction fuel with
  | zero => intro p flags j h; exact h
  | succ fuel ih =>
    intro p flags j h
    simp only [sieveLoop] at h
    by_cases hple : upto < p
    · rwa [if_pos hple] at h
    · rw [if_neg hple] at h
      exact sieveStep_mono upto p flags j (ih (p + 1) _ j h)

lemma mem_collectFrom (v : Nat) :
    ∀ (flags : List Bool) (i : Nat), v ∈ collectFrom i flags ↔
      ∃ j, j < flags.length ∧ flags.getD j false = true ∧ v = i + j + 1 := by
  intro flags
  induction flags with
  | nil => intro i; simp [collectFrom]
  | cons b rest ih =>
    intro i
    simp only [collectFrom]
    by_cases hb : b = true
    · rw [if_pos hb]
      simp only [List.mem_cons, ih (i + 1)]
      constructor
      · rintro (rfl | ⟨j, hj1, hj2, hj3⟩)
        · exact ⟨0, by simp, by rw [List.getD_cons_zero]; exact hb, by omega⟩
        · exact ⟨j + 1, by rw [List.length_cons]; omega,
            by rwa [List.getD_cons_succ], by omega⟩
      · rintro ⟨j, hj1, hj2, hj3⟩
        rcases j with _ | j'
        · exact Or.inl (by omega)
        · refine Or.inr ⟨j', ?_, ?_, by omega⟩
          · rw [List.length_cons] at hj1; omega
          · rwa [List.getD_cons_succ] at hj2
    · rw [if_neg hb, ih (i + 1)]
      constructor
      · rintro ⟨j, hj1, hj2, hj3⟩
        exact ⟨j + 1, by rw [List.length_cons]; omega,
          by rwa [List.getD_cons_succ], by omega⟩
      · rintro ⟨j, hj1, hj2, hj3⟩
        rcases j with _ | j'
        · rw [List.getD_cons_zero] at hj2; exact absurd hj2 hb
        · refine ⟨j', ?_, ?_, by omega⟩
          · rw [List.length_cons] at hj1; omega
          · rwa [List.getD_cons_succ] at hj2

lemma collectFrom_lower (flags : List Bool) (i v : Nat)
    (hv : v ∈ collectFrom i flags) : i + 1 ≤ v := by
  rcases (mem_collectFrom v flags i).mp hv with ⟨j, _, _, hj3⟩
  omega

lemma collectFrom_sorted (flags : List Bool) :
    ∀ i, List.Sorted (· < ·) (collectFrom i flags) := by
  induction flags with
  | nil => intro i; simp [collectFrom]
  | cons b rest ih =>
    intro i
    simp only [collectFrom]
    by_cases hb : b = true
    · rw [if_pos hb, List.sorted_cons]
      refine ⟨fun v hv => ?_, ih (i + 1)⟩
      have := collectFrom_lower rest (i + 1) v hv
      omega
    · rw [if_neg hb]
      exact ih (i + 1)

lemma generate_eq (upto : Nat) (h : 1 ≤ upto) :
    generate upto = some (collectPrimes (sieveFlags upto)) := by
  unfold generate setChecked sieveFlags
  rw [if_pos (by simpa using h)]

/-- C1: at the boundary, `generate 1` indeed returns the empty sequence, but
`generate 0` does not: with `upto = 0` the flag collection is empty and the
unguarded write `prime_flags[0] = false` indexes past its bounds (a panic,
modelled as `none`) instead of yielding an empty sequence. -/
theorem generate_zero_panics : generate 0 = none ∧ generate 1 = some [] :=
  ⟨rfl, rfl⟩

/-- C2: for every `upto ≥ 1`, `generate upto` returns exactly the primes `p`
with `2 ≤ p ≤ upto`, each exactly once, in strictly increasing order; in
particular `generate 30 = [2, 3, 5, 7, 11, 13, 17, 19, 23, 29]` and
`generate 1 = []`. -/
theorem generate_primes :
    (∀ upto, 1 ≤ upto → ∃ l, generate upto = some l ∧
      (∀ p, p ∈ l ↔ Nat.Prime p ∧ 2 ≤ p ∧ p ≤ upto) ∧
      List.Sorted (· < ·) l ∧ l.Nodup) ∧
    generate 30 = some [2, 3, 5, 7, 11, 13, 17, 19, 23, 29] ∧
    generate 1 = some [] := by
  refine ⟨?_, by decide, by decide⟩
  intro upto h1
  refine ⟨collectPrimes (sieveFlags upto), generate_eq upto h1, ?_, ?_, ?_⟩
  · intro p
    unfold collectPrimes
    rw [mem_collectFrom]
    constructor
    · rintro ⟨j, hj1, hj2, hj3⟩
      rw [sieveFlags_length] at hj1
      have hp := (sieveFlags_true_iff upto j hj1).mp hj2
      have hpj : p = j + 1 := by omega
      subst hpj
      exact ⟨hp, hp.two_le, by omega⟩
    · rintro ⟨hp, hp2, hple⟩
      refine ⟨p - 1, ?_, ?_, by omega⟩
      · rw [sieveFlags_length]; omega
      · rw [sieveFlags_true_iff upto (p - 1) (by omega)]
        have hpp : p - 1 + 1 = p := by omega
        rw [hpp]; exact hp
  · exact collectFrom_sorted _ 0
  · exact List.Pairwise.imp (fun h => Nat.ne_of_lt h) (collectFrom_sorted _ 0)

/-- Witness for C2 at `upto = 30`. -/
theorem generate_primes_witness :
    1 ≤ 30 ∧ ∃ l, generate 30 = some l ∧
      (∀ p, p ∈ l ↔ Nat.Prime p ∧ 2 ≤ p ∧ p ≤ 30) ∧
      List.Sorted (· < ·) l ∧ l.Nodup :=
  ⟨by decide, generate_primes.1 30 (by decide)⟩

/-- C3: over a `w`-bit integer type, provided the intermediate product
`result * base` never exceeds the representable range before the reduction
(guaranteed by `(modulus - 1) * base < 2 ^ w`, since the accumulator stays
below `modulus`), `mod_exp` computes `base ^ exponent % modulus` for every
base, exponent and `modulus ≥ 1`; in particular a modulus of `1` always
yields `0`, and a zero exponent with a modulus above `1` yields `1`. -/
theorem mod_exp_correct (w base exponent modulus : Nat)
    (hm : 1 ≤ modulus) (hov : (modulus - 1) * base < 2 ^ w) :
    mod_exp_w w base exponent modulus = base ^ exponent % modulus ∧
    mod_exp_w w base exponent 1 = 0 ∧
    (1 < modulus → mod_exp_w w base 0 modulus = 1) := by
  refine ⟨mod_exp_w_eq w base exponent modulus hm hov, rfl, ?_⟩
  intro h2
  unfold mod_exp_w
  rw [if_neg (by omega)]
  rfl

/-- Witness for C3 at `mod_exp(4, 13, 497)` over 64-bit arithmetic. -/
theorem mod_exp_correct_witness :
    1 ≤ 497 ∧ (497 - 1) * 4 < 2 ^ 64 ∧
    (mod_exp_w 64 4 13 497 = 4 ^ 13 % 497 ∧ mod_exp_w 64 4 13 1 = 0 ∧
      (1 < 497 → mod_exp_w 64 4 0 497 = 1)) :=
  ⟨by decide, by decide, mod_exp_correct 64 4 13 497 (by decide) (by decide)⟩

/-- C9: with a zero trial count, the witness loop of the Fermat test never
runs and the function returns `true` for every `n ≥ 4`, composite or not:
a non-positive round count is not rejected. -/
theorem fermat_zero_rounds (wit : Nat → Nat) (n : Nat) (h : 4 ≤ n) :
    fermat_primality_test wit n 0 = true := by
  unfold fermat_primality_test
  rw [if_neg (by omega), if_neg (by omega)]
  rfl

/-- Witness for C9 at the composite `n = 4`. -/
theorem fermat_zero_rounds_witness :
    4 ≤ 4 ∧ fermat_primality_test (fun i => i) 4 0 = true :=
  ⟨by decide, fermat_zero_rounds (fun i => i) 4 (by decide)⟩

/-- C10: `mod_exp` is not total at `modulus = 0`: for every base and every
positive exponent the loop body evaluates a remainder by zero (the guarded
division's error branch, modelled as `none`), while a zero exponent skips
the loop and returns `1`. -/
theorem mod_exp_zero_modulus :
    (∀ base exponent, 1 ≤ exponent → mod_exp_checked base exponent 0 = none) ∧
    (∀ base, mod_exp_checked base 0 0 = some 1) := by
  constructor
  · intro base exponent he
    rcases exponent with _ | k
    · omega
    · rfl
  · intro base; rfl

/-- Witness for C10 at `base = 7`, `exponent = 2`. -/
theorem mod_exp_zero_modulus_witness :
    (1 ≤ 2 ∧ mod_exp_checked 7 2 0 = none) ∧ mod_exp_checked 7 0 0 = some 1 :=
  ⟨⟨by decide, mod_exp_zero_modulus.1 7 2 (by decide)⟩, mod_exp_zero_modulus.2 7⟩

lemma modExpLoopW_zero (w base modulus : Nat) :
    ∀ k, modExpLoopW w base modulus k 0 = 0 := by
  intro k
  induction k with
  | zero => rfl
  | succ k ih =>
    show modExpLoopW w base modulus k (0 * base % 2 ^ w % modulus) = 0
    rw [Nat.zero_mul, Nat.zero_mod, Nat.zero_mod]
    exact ih

/-- On the wrapped 64-bit arithmetic, the witness `2 ^ 32` drives the
accumulator of any modulus above `2 ^ 32` to an absorbing `0` in two steps:
`1 * 2 ^ 32 = 2 ^ 32`, then `2 ^ 32 * 2 ^ 32 = 2 ^ 64 ≡ 0` after the wrap. -/
lemma mod_exp_w_absorb (n e : Nat) (hn : 2 ^ 32 < n) (hn1 : n ≠ 1) (he : 2 ≤ e) :
    mod_exp_w 64 (2 ^ 32) e n = 0 := by
  unfold mod_exp_w
  rw [if_neg hn1]
  obtain ⟨k, rfl⟩ : ∃ k, e = k + 2 := ⟨e - 2, by omega⟩
  have hstep1 : 1 * 2 ^ 32 % 2 ^ 64 % n = 2 ^ 32 := by
    have ha : (1 * 2 ^ 32 : Nat) % 2 ^ 64 = 2 ^ 32 := by norm_num
    rw [ha, Nat.mod_eq_of_lt hn]
  have hstep2 : (2 ^ 32 * 2 ^ 32 : Nat) % 2 ^ 64 % n = 0 := by
    have h64 : (2 ^ 32 * 2 ^ 32 : Nat) = 2 ^ 64 := by norm_num
    rw [h64, Nat.mod_self, Nat.zero_mod]
  show modExpLoopW 64 (2 ^ 32) n (k + 1) (1 * 2 ^ 32 % 2 ^ 64 % n) = 0
  rw [hstep1]
  show modExpLoopW 64 (2 ^ 32) n k (2 ^ 32 * 2 ^ 32 % 2 ^ 64 % n) = 0
  rw [hstep2]
  exact modExpLoopW_zero 64 (2 ^ 32) n k

/-- `2 ^ 61 - 1` is a Mersenne prime, by the Lucas–Lehmer test. -/
lemma prime_mersenne_61 : Nat.Prime (2 ^ 61 - 1) := by
  have h := lucas_lehmer_sufficiency 61 (by norm_num) (by norm_num)
  simpa [mersenne] using h

/-- C5 counterexample: on the 64-bit arithmetic of the source, the Fermat
test can report a true prime as composite. For the prime `n = 2 ^ 61 - 1`
and one round drawing the in-range witness `2 ^ 32`, the wrapped product
`2 ^ 32 * 2 ^ 32 = 2 ^ 64` reduces to an absorbing `0`, the trial computes
`0 ≠ 1`, and the test returns `false` — a false negative on a prime. -/
theorem fermat_false_negative :
    Nat.Prime (2 ^ 61 - 1) ∧ 0 < 1 ∧
    (∀ i, i < 1 → 2 ≤ 2 ^ 32 ∧ 2 ^ 32 ≤ (2 ^ 61 - 1) - 2) ∧
    fermat_primality_test (fun _ => 2 ^ 32) (2 ^ 61 - 1) 1 = false := by
  refine ⟨prime_mersenne_61, by decide, fun _ _ => ⟨by norm_num, by norm_num⟩, ?_⟩
  have habs := mod_exp_w_absorb (2 ^ 61 - 1) ((2 ^ 61 - 1) - 1)
    (by norm_num) (by norm_num) (by norm_num)
  unfold fermat_primality_test
  rw [if_neg (by norm_num), if_neg (by norm_num)]
  show (if mod_exp_w 64 (2 ^ 32) ((2 ^ 61 - 1) - 1) (2 ^ 61 - 1) ≠ 1 then false
      else fermatLoop (fun _ => 2 ^ 32) (2 ^ 61 - 1) 0 1) = false
  rw [habs]
  norm_num

/-- C5 as amended: the Fermat test never reports a true prime as composite
provided the wrapped 64-bit products cannot overflow — `(n - 1) * (n - 2) <
2 ^ 64`, which covers every prime up to roughly `2 ^ 32`: for every such
prime `n` and every positive round count, whatever witnesses in `[2, n - 2]`
the rounds draw, the test returns `true`. (For larger primes the wrap can
produce a false negative, as the counterexample shows.) -/
theorem fermat_no_false_negatives (n rounds : Nat) (wit : Nat → Nat)
    (hp : Nat.Prime n) (_hr : 0 < rounds)
    (hov : (n - 1) * (n - 2) < 2 ^ 64)
    (hw : ∀ i, i < rounds → 2 ≤ wit i ∧ wit i ≤ n - 2) :
    fermat_primality_test wit n rounds = true := by
  have h2 := hp.two_le
  unfold fermat_primality_test
  rw [if_neg (by omega)]
  by_cases h4 : n < 4
  · rw [if_pos h4]
  · rw [if_neg h4]
    push_neg at h4
    rw [fermatLoop_true_iff]
    intro j hj0 hjr
    rw [Nat.zero_add] at hjr
    obtain ⟨hw2, hwle⟩ := hw j hjr
    have hov' : (n - 1) * wit j < 2 ^ 64 :=
      lt_of_le_of_lt (Nat.mul_le_mul (le_refl (n - 1)) hwle) hov
    have hndvd : ¬n ∣ wit j := by
      intro hdvd
      have := Nat.le_of_dvd (by omega) hdvd
      omega
    have hcop : Nat.Coprime (wit j) n :=
      ((Nat.Prime.coprime_iff_not_dvd hp).mpr hndvd).symm
    have heuler := Nat.ModEq.pow_totient hcop
    rw [Nat.totient_prime hp] at heuler
    unfold Nat.ModEq at heuler
    rw [mod_exp_w_eq 64 _ _ _ (by omega) hov', heuler]
    exact Nat.mod_eq_of_lt (by omega)

/-- Witness for the amended C5 at the prime `n = 5` with one round drawing
witness `2`. -/
theorem fermat_no_false_negatives_witness :
    Nat.Prime 5 ∧ 0 < 1 ∧ (5 - 1) * (5 - 2) < 2 ^ 64 ∧
    (∀ i, i < 1 → 2 ≤ 2 ∧ 2 ≤ 5 - 2) ∧
    fermat_primality_test (fun _ => 2) 5 1 = true :=
  ⟨by norm_num, by decide, by decide, fun _ _ => ⟨by decide, by decide⟩,
    fermat_no_false_negatives 5 1 (fun _ => 2) (by norm_num) (by decide) (by decide)
      (fun _ _ => ⟨Nat.le_refl 2, show (2 : Nat) ≤ 5 - 2 by omega⟩)⟩

/-- C6: the Fermat test returns `false` for every `n < 2` and `true`
immediately for `n ∈ {2, 3}`, for every round count; for `n ≥ 4` it checks
one drawn witness per round on the source's wrapped 64-bit arithmetic: the
result is `true` exactly when every round's witness `a` satisfies
`mod_exp a (n - 1) n = 1` (as the `u64` program computes it), and as soon as
one round observes a failing witness the result is `false` regardless of
what any other round draws (the remaining rounds cannot change it). -/
theorem fermat_structure (n rounds : Nat) (wit : Nat → Nat) :
    (n < 2 → fermat_primality_test wit n rounds = false) ∧
    (n = 2 ∨ n = 3 → fermat_primality_test wit n rounds = true) ∧
    (4 ≤ n → (fermat_primality_test wit n rounds = true ↔
      ∀ i, i < rounds → mod_exp_w 64 (wit i) (n - 1) n = 1)) ∧
    (4 ≤ n → ∀ (wit2 : Nat → Nat) (i0 : Nat), i0 < rounds → wit2 i0 = wit i0 →
      mod_exp_w 64 (wit i0) (n - 1) n ≠ 1 →
      fermat_primality_test wit2 n rounds = false) := by
  refine ⟨?_, ?_, ?_, ?_⟩
  · intro h
    unfold fermat_primality_test
    rw [if_pos h]
  · rintro (rfl | rfl) <;> rfl
  · intro h4
    unfold fermat_primality_test
    rw [if_neg (by omega), if_neg (by omega), fermatLoop_true_iff]
    constructor
    · intro h i hi
      exact h i (by omega) (by omega)
    · intro h i _ hi
      exact h i (by omega)
  · intro h4 wit2 i0 hi0 hagree hfail
    unfold fermat_primality_test
    rw [if_neg (by omega), if_neg (by omega)]
    cases hres : fermatLoop wit2 n rounds 0 with
    | false => rfl
    | true =>
      exfalso
      have hall := (fermatLoop_true_iff wit2 n rounds 0).mp hres
      have hpass := hall i0 (by omega) (by omega)
      rw [hagree] at hpass
      exact hfail hpass

/-- Witness for C6: each clause exercised at a concrete input (`n = 1`,
`n = 3`, and the composite `n = 6` with witness `2`, which fails since
`mod_exp_w 64 2 5 6 = 2`). -/
theorem fermat_structure_witness :
    fermat_primality_test (fun _ => 2) 1 3 = false ∧
    fermat_primality_test (fun _ => 2) 3 5 = true ∧
    (fermat_primality_test (fun _ => 2) 6 1 = true ↔
      ∀ i, i < 1 → mod_exp_w 64 2 5 6 = 1) ∧
    fermat_primality_test (fun _ => 2) 6 1 = false :=
  ⟨(fermat_structure 1 3 (fun _ => 2)).1 (by decide),
    (fermat_structure 3 5 (fun _ => 2)).2.1 (Or.inr rfl),
    (fermat_structure 6 1 (fun _ => 2)).2.2.1 (by decide),
    (fermat_structure 6 1 (fun _ => 2)).2.2.2 (by decide) (fun _ => 2) 0
      (by decide) rfl (by decide)⟩

/-- C7: during sieve construction flags are write-once — an inner marking
pass and the whole outer loop only ever clear flags, never re-set one to
`true` — and once the scan completes, the flag at position `v - 1` is `true`
iff `v` is prime, for every `v` in `[1, upto]` (with `upto ≥ 1`). -/
theorem sieve_invariants :
    (∀ upto p fuel m flags j,
      (markMultiples upto p fuel m flags).getD j false = true →
        flags.getD j false = true) ∧
    (∀ upto fuel p flags j,
      (sieveLoop upto fuel p flags).getD j false = true →
        flags.getD j false = true) ∧
    (∀ upto, 1 ≤ upto → ∀ v, 1 ≤ v → v ≤ upto →
      ((sieveFlags upto).getD (v - 1) false = true ↔ Nat.Prime v)) := by
  refine ⟨?_, ?_, ?_⟩
  · intro upto p fuel m flags j h
    exact markMultiples_mono upto p fuel m flags j h
  · intro upto fuel p flags j h
    exact sieveLoop_mono upto fuel p flags j h
  · intro upto _ v hv1 hv2
    have hch := sieveFlags_true_iff upto (v - 1) (by omega)
    have hvv : v - 1 + 1 = v := by omega
    rwa [hvv] at hch

/-- Witness for C7: the monotonicity clauses at a small marking pass and a
small sieve run, and the final characterization at `upto = 10`, `v = 7`. -/
theorem sieve_invariants_witness :
    [true, true, true, true].getD 0 false = true ∧
    ((List.replicate 10 true).set 0 false).getD 2 false = true ∧
    (1 ≤ 10 ∧ 1 ≤ 7 ∧ 7 ≤ 10 ∧
      ((sieveFlags 10).getD (7 - 1) false = true ↔ Nat.Prime 7)) :=
  ⟨sieve_invariants.1 4 2 4 2 [true, true, true, true] 0 (by decide),
    sieve_invariants.2.1 10 10 2 ((List.replicate 10 true).set 0 false) 2 (by decide),
    by decide, by decide, by decide,
    sieve_invariants.2.2 10 (by decide) 7 (by decide) (by decide)⟩

/-- C8: every loop of the four operations reaches its exit condition within a
bound determined by its inputs alone — the `mod_exp` loop within `exponent`
iterations, the outer sieve loop within `upto`, the inner marking loop within
`upto + 1` (for any positive candidate `p`), the trial-division scan within
`√n`, and the Fermat trial loop within `rounds` — so none of the fueled runs
exhausts its fuel and execution is always finite. -/
theorem loops_terminate :
    (∀ base modulus exponent,
      (whileFuel (modExpCond exponent) (modExpBody base modulus)
        exponent (0, 1)).isSome = true) ∧
    (∀ upto flags,
      (whileFuel (sieveCond upto) (sieveBody upto) upto (2, flags)).isSome = true) ∧
    (∀ upto p flags, 1 ≤ p →
      (whileFuel (markCond upto p) (markBody p) (upto + 1) (2, flags)).isSome = true) ∧
    (∀ n,
      (whileFuel (trialCond (Nat.sqrt n)) (trialBody n)
        (Nat.sqrt n) (2, false)).isSome = true) ∧
    (∀ wit n rounds,
      (whileFuel (fermatCond rounds) (fermatBody wit n) rounds (0, true)).isSome = true) := by
  refine ⟨?_, ?_, ?_, ?_, ?_⟩
  · intro base modulus exponent
    refine whileFuel_isSome _ _ (fun s => exponent - s.1) ?_ exponent (0, 1)
      (show exponent - 0 ≤ exponent by omega)
    intro s hs
    simp only [modExpCond, decide_eq_true_eq] at hs
    simp only [modExpBody]
    omega
  · intro upto flags
    refine whileFuel_isSome _ _ (fun s => upto + 1 - s.1) ?_ upto (2, flags)
      (show upto + 1 - 2 ≤ upto by omega)
    intro s hs
    simp only [sieveCond, decide_eq_true_eq] at hs
    simp only [sieveBody]
    omega
  · intro upto p flags hp
    refine whileFuel_isSome _ _ (fun s => upto + 1 - p * s.1) ?_ (upto + 1) (2, flags)
      (show upto + 1 - p * 2 ≤ upto + 1 by omega)
    intro s hs
    simp only [markCond, Bool.not_eq_true', decide_eq_false_iff_not, Nat.not_lt] at hs
    simp only [markBody]
    have hmul : p * (s.1 + 1) = p * s.1 + p := by ring
    omega
  · intro n
    refine whileFuel_isSome _ _ (fun s => Nat.sqrt n + 1 - s.1) ?_ (Nat.sqrt n) (2, false)
      (show Nat.sqrt n + 1 - 2 ≤ Nat.sqrt n by omega)
    intro s hs
    simp only [trialCond, Bool.and_eq_true, decide_eq_true_eq] at hs
    simp only [trialBody]
    omega
  · intro wit n rounds
    refine whileFuel_isSome _ _ (fun s => rounds - s.1) ?_ rounds (0, true)
      (show rounds - 0 ≤ rounds by omega)
    intro s hs
    simp only [fermatCond, Bool.and_eq_true, decide_eq_true_eq] at hs
    simp only [fermatBody]
    omega

/-- Witness for C8: each fueled loop run at concrete inputs. -/
theorem loops_terminate_witness :
    (whileFuel (modExpCond 3) (modExpBody 2 5) 3 (0, 1)).isSome = true ∧
    (whileFuel (sieveCond 10) (sieveBody 10) 10 (2, List.replicate 10 true)).isSome = true ∧
    (1 ≤ 2 ∧
      (whileFuel (markCond 10 2) (markBody 2) (10 + 1)
        (2, List.replicate 10 true)).isSome = true) ∧
    (whileFuel (trialCond (Nat.sqrt 30)) (trialBody 30)
      (Nat.sqrt 30) (2, false)).isSome = true ∧
    (whileFuel (fermatCond 2) (fermatBody (fun _ => 2) 5) 2 (0, true)).isSome = true :=
  ⟨loops_terminate.1 2 5 3,
    loops_terminate.2.1 10 (List.replicate 10 true),
    ⟨by decide, loops_terminate.2.2.1 10 2 (List.replicate 10 true) (by decide)⟩,
    loops_terminate.2.2.2.1 30,
    loops_terminate.2.2.2.2 (fun _ => 2) 5 2⟩
